import Mathlib

/-!
Verification development for the memory and learning consolidation engine of
a personal AI agent backend (FastAPI + SQLAlchemy).  The Python sources are
shallowly embedded: SQLAlchemy rows become Lean structures, datetimes become
rationals measured in days, Python floats become rationals (all constants in
the engine are decimal literals, so rational arithmetic is exact on the
reachable values), and the per-user database session becomes explicit state
passing over lists of records.  Integer-valued counters are natural numbers
(they start at 1/0/0 and only grow or are summed).  The storage-layer
automatic bump of the `updated_at` column (SQLAlchemy onupdate hook) is not
modelled; every explicit assignment of `updated_at` in the Python code is.
-/

namespace AgentSpec

/-- Embedding of the `learning_data` row (backend/app/models/learning_data.py,
class LearningData).  `id` and the UUID references are modelled as naturals;
datetime columns are rationals counted in days. -/
structure LearningRec where
  id : Nat
  user_id : String
  learning_type : String
  category : String
  key : String
  value : String
  confidence : ℚ
  source_conversation_id : Option Nat
  context : Option String
  extraction_method : String
  times_observed : Nat
  times_reinforced : Nat
  times_contradicted : Nat
  last_observed : ℚ
  last_reinforced : ℚ
  created_at : ℚ
  updated_at : ℚ
  is_active : Bool
  is_validated : Bool
  superseded_by : Option Nat
  validation_score : ℚ
  importance_score : ℚ
deriving DecidableEq, Repr

/-- `LearningData._calculate_validation_score`: reinforcement share of total
feedback, plus an observation bonus `min(times_observed/10, 0.2)`, capped
at 1; zero when there has been no feedback at all. -/
def calcValidationScore (r : LearningRec) : ℚ :=
  let totalFeedback := r.times_reinforced + r.times_contradicted
  if totalFeedback = 0 then 0
  else
    min ((r.times_reinforced : ℚ) / (totalFeedback : ℚ)
          + min ((r.times_observed : ℚ) / 10) (2/10)) 1

/-- `LearningData.reinforce(new_confidence=None)`.  Counters and timestamps
are updated first (so the weight below already sees the incremented
`times_reinforced`); with an observed confidence the new confidence is a
weighted average with weight `min(times_reinforced/10, 0.5)`, otherwise the
old confidence is multiplied by 1.1 and capped at 1. -/
def reinforce (now : ℚ) (newConfidence : Option ℚ) (r : LearningRec) : LearningRec :=
  let r1 := { r with
    times_reinforced := r.times_reinforced + 1,
    times_observed := r.times_observed + 1,
    last_reinforced := now,
    last_observed := now }
  let r2 :=
    match newConfidence with
    | some c =>
        let weight := min ((r1.times_reinforced : ℚ) / 10) (1/2)
        { r1 with confidence := weight * c + (1 - weight) * r1.confidence }
    | none => { r1 with confidence := min (r1.confidence * (11/10)) 1 }
  { r2 with validation_score := calcValidationScore r2, updated_at := now }

/-- `LearningData.contradict()`: bump the contradiction and observation
counters, subtract the fixed penalty 0.2 from confidence with a floor of
0.1, recompute the validation score, and deactivate the record when
`times_contradicted > times_reinforced + 2`. -/
def contradict (now : ℚ) (r : LearningRec) : LearningRec :=
  let r1 := { r with
    times_contradicted := r.times_contradicted + 1,
    times_observed := r.times_observed + 1,
    last_observed := now }
  let r2 := { r1 with confidence := max (r1.confidence - 2/10) (1/10) }
  let r3 := { r2 with validation_score := calcValidationScore r2 }
  let r4 :=
    if r3.times_reinforced + 2 < r3.times_contradicted then
      { r3 with is_active := false }
    else r3
  { r4 with updated_at := now }

/-- An evidence event on a fact record: either a `reinforce` call (with an
optional observed confidence) or a `contradict` call, each carrying the
wall-clock time of the call. -/
inductive LearnOp where
  | reinforceOp : ℚ → Option ℚ → LearnOp
  | contradictOp : ℚ → LearnOp
deriving DecidableEq, Repr

/-- Apply one evidence event to a record. -/
def applyOp (r : LearningRec) : LearnOp → LearningRec
  | .reinforceOp now c => reinforce now c r
  | .contradictOp now => contradict now r

/-- Apply a sequence of evidence events, oldest first. -/
def applyOps (r : LearningRec) (ops : List LearnOp) : LearningRec :=
  ops.foldl applyOp r

/-- The data-model invariant tied to the contradiction threshold: any record
whose contradictions exceed its reinforcements by more than 2 is inactive. -/
def contradictionInvariant (r : LearningRec) : Prop :=
  r.times_reinforced + 2 < r.times_contradicted → r.is_active = false

instance (r : LearningRec) : Decidable (contradictionInvariant r) := by
  unfold contradictionInvariant; infer_instance

/-- A sample freshly created record, used to instantiate theorems with
hypotheses on concrete inputs. -/
def baseRec : LearningRec :=
  { id := 1, user_id := "u", learning_type := "personal_fact", category := "general",
    key := "name", value := "Alice", confidence := 1/2, source_conversation_id := none,
    context := none, extraction_method := "ai_analysis", times_observed := 1,
    times_reinforced := 0, times_contradicted := 0, last_observed := 0,
    last_reinforced := 0, created_at := 0, updated_at := 0, is_active := true,
    is_validated := false, superseded_by := none, validation_score := 0,
    importance_score := 1/2 }

theorem contradict_confidence (now : ℚ) (r : LearningRec) :
    (contradict now r).confidence = max (r.confidence - 2/10) (1/10) := by
  simp only [contradict]
  split <;> rfl

theorem contradict_counts (now : ℚ) (r : LearningRec) :
    (contradict now r).times_contradicted = r.times_contradicted + 1
    ∧ (contradict now r).times_reinforced = r.times_reinforced := by
  simp only [contradict]
  split <;> exact ⟨rfl, rfl⟩

theorem contradict_threshold_inactive (now : ℚ) (r : LearningRec)
    (h : (contradict now r).times_reinforced + 2 < (contradict now r).times_contradicted) :
    (contradict now r).is_active = false := by
  rcases contradict_counts now r with ⟨hc, hr⟩
  rw [hc, hr] at h
  simp only [contradict]
  split
  · rfl
  · exact absurd h (by omega)

theorem contradict_inactive (now : ℚ) (r : LearningRec) (h : r.is_active = false) :
    (contradict now r).is_active = false := by
  simp only [contradict]
  split
  · rfl
  · exact h

theorem reinforce_is_active (now : ℚ) (c : Option ℚ) (r : LearningRec) :
    (reinforce now c r).is_active = r.is_active := by
  cases c <;> rfl

theorem reinforce_counts (now : ℚ) (c : Option ℚ) (r : LearningRec) :
    (reinforce now c r).times_reinforced = r.times_reinforced + 1
    ∧ (reinforce now c r).times_contradicted = r.times_contradicted := by
  cases c <;> exact ⟨rfl, rfl⟩

theorem reinforce_confidence_none (now : ℚ) (r : LearningRec) :
    (reinforce now none r).confidence = min (r.confidence * (11/10)) 1 := rfl

theorem reinforce_confidence_some (now x : ℚ) (r : LearningRec) :
    (reinforce now (some x) r).confidence =
      min (((r.times_reinforced + 1 : ℕ) : ℚ) / 10) (1/2) * x
        + (1 - min (((r.times_reinforced + 1 : ℕ) : ℚ) / 10) (1/2)) * r.confidence := rfl

/-- Claim C7: starting from confidence in [0, 1], a `contradict` call leaves
confidence in [0.1, 1.0], and a `reinforce` call (with or without an
observed confidence in [0, 1]) leaves it in [0, 1.0]. -/
theorem confidence_bounds_after_reinforce_contradict
    (now : ℚ) (c : Option ℚ) (r : LearningRec)
    (h0 : 0 ≤ r.confidence) (h1 : r.confidence ≤ 1)
    (hc : ∀ x, c = some x → 0 ≤ x ∧ x ≤ 1) :
    (1/10 ≤ (contradict now r).confidence ∧ (contradict now r).confidence ≤ 1)
    ∧ 0 ≤ (reinforce now c r).confidence ∧ (reinforce now c r).confidence ≤ 1 := by
  refine ⟨⟨?_, ?_⟩, ?_, ?_⟩
  · rw [contradict_confidence]; exact le_max_right _ _
  · rw [contradict_confidence]
    exact max_le (by linarith) (by norm_num)
  · cases c with
    | none =>
        rw [reinforce_confidence_none]
        exact le_min (mul_nonneg h0 (by norm_num)) (by norm_num)
    | some x =>
        obtain ⟨hx0, hx1⟩ := hc x rfl
        rw [reinforce_confidence_some]
        have hw0 : 0 ≤ min (((r.times_reinforced + 1 : ℕ) : ℚ) / 10) (1/2) := by
          refine le_min ?_ (by norm_num)
          positivity
        have hw1 : min (((r.times_reinforced + 1 : ℕ) : ℚ) / 10) (1/2) ≤ 1/2 :=
          min_le_right _ _
        exact add_nonneg (mul_nonneg hw0 hx0) (mul_nonneg (by linarith) h0)
  · cases c with
    | none =>
        rw [reinforce_confidence_none]
        exact min_le_right _ _
    | some x =>
        obtain ⟨hx0, hx1⟩ := hc x rfl
        rw [reinforce_confidence_some]
        have hw0 : 0 ≤ min (((r.times_reinforced + 1 : ℕ) : ℚ) / 10) (1/2) := by
          refine le_min ?_ (by norm_num)
          positivity
        have hw1 : min (((r.times_reinforced + 1 : ℕ) : ℚ) / 10) (1/2) ≤ 1/2 :=
          min_le_right _ _
        have ha := mul_le_mul_of_nonneg_left hx1 hw0
        have hb := mul_le_mul_of_nonneg_left h1 (show (0:ℚ) ≤ 1 - min (((r.times_reinforced + 1 : ℕ) : ℚ) / 10) (1/2) by linarith)
        linarith

/-- Witness for claim C7 at a concrete record. -/
theorem confidence_bounds_after_reinforce_contradict_witness :
    ((0:ℚ) ≤ baseRec.confidence ∧ baseRec.confidence ≤ 1)
    ∧ (1/10 ≤ (contradict 5 baseRec).confidence ∧ (contradict 5 baseRec).confidence ≤ 1)
    ∧ 0 ≤ (reinforce 5 (some (3/4)) baseRec).confidence
    ∧ (reinforce 5 (some (3/4)) baseRec).confidence ≤ 1 := by
  refine ⟨⟨by norm_num [baseRec], by norm_num [baseRec]⟩, ?_⟩
  exact confidence_bounds_after_reinforce_contradict 5 (some (3/4)) baseRec
    (by norm_num [baseRec]) (by norm_num [baseRec])
    (fun x hx => by injection hx with h; subst h; exact ⟨by norm_num, by norm_num⟩)

theorem applyOp_invariant (r : LearningRec) (op : LearnOp)
    (h : contradictionInvariant r) : contradictionInvariant (applyOp r op) := by
  cases op with
  | reinforceOp now c =>
      intro hlt
      rcases reinforce_counts now c r with ⟨ha, hb⟩
      rw [applyOp] at hlt
      rw [ha, hb] at hlt
      rw [applyOp, reinforce_is_active]
      exact h (by omega)
  | contradictOp now =>
      intro hlt
      exact contradict_threshold_inactive now r hlt

theorem applyOp_inactive (r : LearningRec) (op : LearnOp)
    (h : r.is_active = false) : (applyOp r op).is_active = false := by
  cases op with
  | reinforceOp now c => rw [applyOp, reinforce_is_active]; exact h
  | contradictOp now => exact contradict_inactive now r h

theorem applyOps_invariant (ops : List LearnOp) (r : LearningRec)
    (h : contradictionInvariant r) : contradictionInvariant (applyOps r ops) := by
  induction ops generalizing r with
  | nil => exact h
  | cons op ops ih => exact ih (applyOp r op) (applyOp_invariant r op h)

theorem applyOps_inactive (ops : List LearnOp) (r : LearningRec)
    (h : r.is_active = false) : (applyOps r ops).is_active = false := by
  induction ops generalizing r with
  | nil => exact h
  | cons op ops ih => exact ih (applyOp r op) (applyOp_inactive r op h)

/-- Claim C8: along any sequence of reinforce/contradict events starting from
a record satisfying the contradiction-threshold invariant, the invariant is
maintained (crossing the threshold forces `is_active = false`), inactivity is
permanent, and a `reinforce` call never changes `is_active` (so it can never
reactivate a deactivated record). -/
theorem contradiction_deactivation_sticky
    (r : LearningRec) (ops : List LearnOp) (h : contradictionInvariant r) :
    contradictionInvariant (applyOps r ops)
    ∧ (r.is_active = false → (applyOps r ops).is_active = false)
    ∧ ∀ now c, (reinforce now c (applyOps r ops)).is_active = (applyOps r ops).is_active :=
  ⟨applyOps_invariant ops r h,
   fun hin => applyOps_inactive ops r hin,
   fun now c => reinforce_is_active now c (applyOps r ops)⟩

/-- Witness for claim C8: a fresh record contradicted four times ends up
inactive, by the maintained invariant. -/
theorem contradiction_deactivation_sticky_witness :
    contradictionInvariant baseRec
    ∧ (applyOps baseRec [LearnOp.contradictOp 1, LearnOp.contradictOp 2,
        LearnOp.contradictOp 3, LearnOp.contradictOp 4]).is_active = false :=
  ⟨by decide,
   (contradiction_deactivation_sticky baseRec
      [LearnOp.contradictOp 1, LearnOp.contradictOp 2,
       LearnOp.contradictOp 3, LearnOp.contradictOp 4] (by decide)).1 (by decide)⟩

/-- ASCII lowercasing, embedding Python `str.lower()` (all strings handled by
the engine are ASCII; `Char.toLower` agrees with Python there). -/
def lowerStr (s : String) : String := String.mk (s.data.map Char.toLower)

/-- A word character in the sense of the regex `\b` boundary used by
`MemoryService._extract_keywords`: ASCII letters, digits or underscore. -/
def wordChar (c : Char) : Bool := c.isAlphanum || c == '_'

/-- Split a character list into its maximal runs of word characters.  The
first argument accumulates the current run in reverse. -/
def runsAux (acc : List Char) : List Char → List (List Char)
  | [] => if acc.isEmpty then [] else [acc.reverse]
  | c :: cs =>
      if wordChar c then runsAux (c :: acc) cs
      else if acc.isEmpty then runsAux [] cs
      else acc.reverse :: runsAux [] cs

/-- The maximal word-character runs of a string.  A run matches the source
regex `\b[a-zA-Z]{3,}\b` exactly when it is all-alphabetic of length at
least 3 (a run touching a digit or underscore has no `\b` boundary). -/
def wordRuns (s : String) : List String :=
  (runsAux [] s.data).map (fun l => String.mk l)

/-- The fixed stop-word set of `MemoryService._extract_keywords`. -/
def stopWords : List String :=
  ["the", "a", "an", "and", "or", "but", "in", "on", "at", "to", "for", "of",
   "with", "by", "is", "are", "was", "were", "be", "been", "being", "have",
   "has", "had", "do", "does", "did", "will", "would", "could", "should",
   "may", "might", "must", "can", "this", "that", "these", "those", "i",
   "me", "my", "myself", "we", "us", "our", "you", "your", "he", "him",
   "his", "she", "her", "it", "its", "they", "them", "their"]

/-- Deduplicate a list of strings keeping first occurrences.  The source
builds `list(set(keywords))`, whose order is unspecified; keyword order does
not affect any score, so first-occurrence order is one admissible
realization. -/
def dedupAux (seen : List String) : List String → List String
  | [] => []
  | w :: ws => if seen.contains w then dedupAux seen ws else w :: dedupAux (w :: seen) ws

/-- `MemoryService._extract_keywords`: lowercase the text, take the
alphabetic tokens of length at least 3, drop stop words, deduplicate. -/
def extractKeywords (text : String) : List String :=
  dedupAux []
    (((wordRuns (lowerStr text)).filter
        (fun w => 3 ≤ w.length && w.data.all Char.isAlpha)).filter
      (fun w => !(stopWords.contains w)))

/-- Substring test on character lists (Python `needle in haystack`). -/
def isSubList (n : List Char) : List Char → Bool
  | [] => n.isEmpty
  | c :: t => n.isPrefixOf (c :: t) || isSubList n t

/-- Python string containment `needle in haystack`. -/
def containsSubstr (needle hay : String) : Bool := isSubList needle.data hay.data

/-- One retrieved memory, the dictionary built by
`MemoryService.get_relevant_memories` for each sufficiently relevant fact. -/
structure Memory where
  type : String
  key : String
  value : String
  confidence : ℚ
  relevance : ℚ
  context : Option String
  last_observed : ℚ
deriving DecidableEq, Repr

/-- The memory dictionary assembled from a fact record and its score. -/
def mkMemory (d : LearningRec) (score : ℚ) : Memory :=
  { type := d.learning_type, key := d.key, value := d.value,
    confidence := d.confidence, relevance := score, context := d.context,
    last_observed := d.last_observed }

/-- `MemoryService._calculate_relevance_score`.  `query` is passed by the
source but never read; the score uses the extracted keywords, the days
elapsed since `last_observed` (Python `timedelta.days`, i.e. the floor of
the day difference), the confidence, and the flat type bonus, capped at 1. -/
def relevanceScore (now : ℚ) (query : String) (keywords : List String)
    (d : LearningRec) : ℚ :=
  let textToSearch := lowerStr (d.key ++ " " ++ d.value ++ " " ++ (d.context.getD ""))
  let keywordMatches := (keywords.filter (fun kw => containsSubstr kw textToSearch)).length
  let score : ℚ := 0
  let score :=
    if keywords.length ≠ 0 then
      score + ((keywordMatches : ℚ) / (keywords.length : ℚ)) * (6/10)
    else score
  let daysSince : ℤ := ⌊now - d.last_observed⌋
  let score := score + (max 0 (1 - (daysSince : ℚ) / 30)) * (2/10)
  let score := score + d.confidence * (2/10)
  let score :=
    if d.learning_type = "personal_fact" ∨ d.learning_type = "communication_preference" then
      score + 1/10
    else score
  min score 1

/-- Whether record `a` is ordered strictly before `b` by the fetch query
`ORDER BY confidence DESC, last_observed DESC`. -/
def fetchBefore (a b : LearningRec) : Bool :=
  decide (b.confidence < a.confidence)
    || (decide (a.confidence = b.confidence) && decide (b.last_observed < a.last_observed))

/-- Insert into a list sorted by `fetchBefore`, keeping the inserted element
in front of anything it is not strictly after (a stable realization of the
database sort; residual ties between records equal on both sort keys are
backend-unspecified in the source). -/
def insertFetch (x : LearningRec) : List LearningRec → List LearningRec
  | [] => [x]
  | y :: ys => if fetchBefore y x then y :: insertFetch x ys else x :: y :: ys

/-- Sort by descending `(confidence, last_observed)`, as the fetch query in
`get_relevant_memories` does. -/
def sortFetch : List LearningRec → List LearningRec
  | [] => []
  | x :: xs => insertFetch x (sortFetch xs)

/-- Stable insertion for the final `relevant_memories.sort(key=relevance,
reverse=True)`: the inserted element passes over strictly more relevant
elements only, so equal-relevance elements keep their input order, exactly
like the stable Python sort. -/
def insertMem (x : Memory) : List Memory → List Memory
  | [] => [x]
  | y :: ys => if decide (x.relevance < y.relevance) then y :: insertMem x ys else x :: y :: ys

/-- Stable sort of the scored memories by descending relevance. -/
def sortMemByRel : List Memory → List Memory
  | [] => []
  | x :: xs => insertMem x (sortMemByRel xs)

/-- The scored candidate list of `MemoryService.get_relevant_memories`: the
active facts of the user in fetch order (confidence descending, then
`last_observed` descending), limited to 20, scored, and kept only when the
score exceeds the 0.1 threshold. -/
def scoredCandidates (now : ℚ) (uid query : String) (store : List LearningRec) :
    List Memory :=
  let keywords := extractKeywords (lowerStr query)
  let cands := (sortFetch (store.filter (fun r => r.user_id == uid && r.is_active))).take 20
  cands.filterMap (fun d =>
    let score := relevanceScore now query keywords d
    if 1/10 < score then some (mkMemory d score) else none)

/-- `MemoryService.get_relevant_memories`: score the fetched candidates,
drop those at or below relevance 0.1, stable-sort by descending relevance,
return the first `limit`. -/
def getRelevantMemories (now : ℚ) (uid query : String) (limit : ℕ)
    (store : List LearningRec) : List Memory :=
  (sortMemByRel (scoredCandidates now uid query store)).take limit

/-- Claim C6: the relevance score is the clamped weighted sum
`min(0.6*keyword_fraction + 0.2*recency + 0.2*confidence + type_bonus, 1)`
and, for a fact with nonnegative confidence, always lies in [0, 1]. -/
theorem relevanceScore_formula_and_bounds (now : ℚ) (query : String)
    (keywords : List String) (d : LearningRec) (h : 0 ≤ d.confidence) :
    relevanceScore now query keywords d =
      min ((if keywords.length ≠ 0 then
              (((keywords.filter (fun kw => containsSubstr kw
                  (lowerStr (d.key ++ " " ++ d.value ++ " " ++ (d.context.getD ""))))).length : ℚ)
                / (keywords.length : ℚ)) * (6/10)
            else 0)
          + max 0 (1 - ((⌊now - d.last_observed⌋ : ℤ) : ℚ) / 30) * (2/10)
          + d.confidence * (2/10)
          + (if d.learning_type = "personal_fact" ∨ d.learning_type = "communication_preference"
              then (1:ℚ)/10 else 0)) 1
    ∧ 0 ≤ relevanceScore now query keywords d
    ∧ relevanceScore now query keywords d ≤ 1 := by
  have heq : relevanceScore now query keywords d =
      min ((if keywords.length ≠ 0 then
              (((keywords.filter (fun kw => containsSubstr kw
                  (lowerStr (d.key ++ " " ++ d.value ++ " " ++ (d.context.getD ""))))).length : ℚ)
                / (keywords.length : ℚ)) * (6/10)
            else 0)
          + max 0 (1 - ((⌊now - d.last_observed⌋ : ℤ) : ℚ) / 30) * (2/10)
          + d.confidence * (2/10)
          + (if d.learning_type = "personal_fact" ∨ d.learning_type = "communication_preference"
              then (1:ℚ)/10 else 0)) 1 := by
    simp only [relevanceScore]
    split_ifs <;> (first | rfl | (congr 1; ring))
  refine ⟨heq, ?_, ?_⟩
  · rw [heq]
    refine le_min ?_ (by norm_num)
    have ht1 : (0:ℚ) ≤
        (if keywords.length ≠ 0 then
            (((keywords.filter (fun kw => containsSubstr kw
                (lowerStr (d.key ++ " " ++ d.value ++ " " ++ (d.context.getD ""))))).length : ℚ)
              / (keywords.length : ℚ)) * (6/10)
          else 0) := by
      split_ifs
      · positivity
      · exact le_refl 0
    have ht2 : (0:ℚ) ≤ max 0 (1 - ((⌊now - d.last_observed⌋ : ℤ) : ℚ) / 30) * (2/10) :=
      mul_nonneg (le_max_left 0 _) (by norm_num)
    have ht3 : (0:ℚ) ≤ d.confidence * (2/10) := mul_nonneg h (by norm_num)
    have ht4 : (0:ℚ) ≤
        (if d.learning_type = "personal_fact" ∨ d.learning_type = "communication_preference"
          then (1:ℚ)/10 else 0) := by
      split_ifs <;> norm_num
    linarith
  · rw [heq]; exact min_le_right _ _

/-- Concrete active fact: lower confidence but observed just now. -/
def jazzA : LearningRec :=
  { baseRec with
    id := 1
    key := "music"
    value := "jazz"
    confidence := 9/10
    last_observed := 100
    last_reinforced := 100
    created_at := 90
    updated_at := 100 }

/-- Concrete active fact: full confidence but observed three days ago. -/
def jazzB : LearningRec :=
  { baseRec with
    id := 2
    key := "music"
    value := "jazz"
    confidence := 1
    last_observed := 97
    last_reinforced := 97
    created_at := 91
    updated_at := 97 }

/-- Witness for claim C6 at a concrete fact and keyword list. -/
theorem relevanceScore_formula_and_bounds_witness :
    (0:ℚ) ≤ jazzA.confidence
    ∧ 0 ≤ relevanceScore 100 "jazz" ["jazz"] jazzA
    ∧ relevanceScore 100 "jazz" ["jazz"] jazzA ≤ 1 :=
  ⟨by norm_num [jazzA, baseRec],
   (relevanceScore_formula_and_bounds 100 "jazz" ["jazz"] jazzA
      (by norm_num [jazzA, baseRec])).2.1,
   (relevanceScore_formula_and_bounds 100 "jazz" ["jazz"] jazzA
      (by norm_num [jazzA, baseRec])).2.2⟩

/-- The retrieval order asserted by the specification: descending relevance
with ties broken by `last_observed` descending. -/
def claimedRetrievalOrder (a b : Memory) : Prop :=
  b.relevance < a.relevance
    ∨ (a.relevance = b.relevance ∧ b.last_observed ≤ a.last_observed)

/-- Counterexample to claim C5: on two facts whose clamped scores tie at 1,
retrieval returns the higher-confidence fact first even though the other
fact was observed more recently, because the stable sort keeps the fetch
order (confidence descending), not `last_observed` descending. -/
theorem getRelevantMemories_tiebreak_cex :
    getRelevantMemories 100 "u" "jazz" 5 [jazzA, jazzB]
      = [mkMemory jazzB 1, mkMemory jazzA 1]
    ∧ (mkMemory jazzB 1).relevance = (mkMemory jazzA 1).relevance
    ∧ (mkMemory jazzB 1).last_observed < (mkMemory jazzA 1).last_observed
    ∧ ¬ List.Pairwise claimedRetrievalOrder
        (getRelevantMemories 100 "u" "jazz" 5 [jazzA, jazzB]) := by
  have hkw : extractKeywords (lowerStr "jazz") = ["jazz"] := by decide
  have hA : relevanceScore 100 "jazz" ["jazz"] jazzA = 1 := by
    have hcA : containsSubstr "jazz"
        (lowerStr (jazzA.key ++ " " ++ jazzA.value ++ " " ++ (jazzA.context.getD ""))) = true := by
      decide
    simp only [relevanceScore, List.filter, hcA]
    norm_num [jazzA, baseRec]
  have hB : relevanceScore 100 "jazz" ["jazz"] jazzB = 1 := by
    have hcB : containsSubstr "jazz"
        (lowerStr (jazzB.key ++ " " ++ jazzB.value ++ " " ++ (jazzB.context.getD ""))) = true := by
      decide
    simp only [relevanceScore, List.filter, hcB]
    norm_num [jazzB, baseRec]
  have hu : (jazzA.user_id == "u" && jazzA.is_active) = true := by decide
  have hv : (jazzB.user_id == "u" && jazzB.is_active) = true := by decide
  have hf : fetchBefore jazzB jazzA = true := by
    norm_num [fetchBefore, jazzA, jazzB, baseRec]
  have hout : getRelevantMemories 100 "u" "jazz" 5 [jazzA, jazzB]
      = [mkMemory jazzB 1, mkMemory jazzA 1] := by
    norm_num [getRelevantMemories, scoredCandidates, hkw, hA, hB, hu, hv, hf,
      List.filter, sortFetch, insertFetch, List.take, List.filterMap,
      sortMemByRel, insertMem, mkMemory]
  refine ⟨hout, by norm_num [mkMemory], ?_, ?_⟩
  · norm_num [mkMemory, jazzA, jazzB, baseRec]
  · rw [hout]
    intro hpair
    rw [List.pairwise_cons] at hpair
    have h1 := hpair.1 (mkMemory jazzA 1) (by simp)
    rcases h1 with h1 | ⟨h1, h2⟩
    · simp [mkMemory] at h1
    · have h3 : (mkMemory jazzA 1).last_observed ≤ (mkMemory jazzB 1).last_observed := h2
      norm_num [mkMemory, jazzA, jazzB, baseRec] at h3

theorem mem_insertMem (x z : Memory) (l : List Memory) :
    z ∈ insertMem x l ↔ z = x ∨ z ∈ l := by
  induction l with
  | nil => simp [insertMem]
  | cons y ys ih =>
      rw [insertMem]
      by_cases hxy : x.relevance < y.relevance
      · rw [if_pos (decide_eq_true hxy)]
        simp only [List.mem_cons, ih]
        tauto
      · rw [if_neg (fun hbad => hxy (of_decide_eq_true hbad))]
        simp [List.mem_cons]

theorem pairwise_insertMem (x : Memory) (l : List Memory)
    (h : List.Pairwise (fun a b => b.relevance ≤ a.relevance) l) :
    List.Pairwise (fun a b => b.relevance ≤ a.relevance) (insertMem x l) := by
  induction l with
  | nil => simp [insertMem]
  | cons y ys ih =>
      rw [List.pairwise_cons] at h
      obtain ⟨hy, hys⟩ := h
      rw [insertMem]
      by_cases hxy : x.relevance < y.relevance
      · rw [if_pos (decide_eq_true hxy)]
        rw [List.pairwise_cons]
        refine ⟨?_, ih hys⟩
        intro z hz
        rcases (mem_insertMem x z ys).1 hz with rfl | hz2
        · exact le_of_lt hxy
        · exact hy z hz2
      · rw [if_neg (fun hbad => hxy (of_decide_eq_true hbad))]
        rw [List.pairwise_cons]
        refine ⟨?_, List.pairwise_cons.2 ⟨hy, hys⟩⟩
        intro z hz
        rcases List.mem_cons.1 hz with rfl | hz2
        · exact le_of_not_lt hxy
        · exact le_trans (hy z hz2) (le_of_not_lt hxy)

theorem pairwise_sortMemByRel (l : List Memory) :
    List.Pairwise (fun a b => b.relevance ≤ a.relevance) (sortMemByRel l) := by
  induction l with
  | nil => simp [sortMemByRel]
  | cons x xs ih => exact pairwise_insertMem x (sortMemByRel xs) ih

theorem insertMem_perm (x : Memory) (l : List Memory) :
    List.Perm (insertMem x l) (x :: l) := by
  induction l with
  | nil => rfl
  | cons y ys ih =>
      rw [insertMem]
      by_cases hxy : x.relevance < y.relevance
      · rw [if_pos (decide_eq_true hxy)]
        exact (ih.cons y).trans (List.Perm.swap x y ys)
      · rw [if_neg (fun hbad => hxy (of_decide_eq_true hbad))]

theorem sortMemByRel_perm (l : List Memory) : List.Perm (sortMemByRel l) l := by
  induction l with
  | nil => rfl
  | cons x xs ih => exact (insertMem_perm x (sortMemByRel xs)).trans (ih.cons x)

theorem filter_insertMem (x : Memory) (l : List Memory) (r : ℚ) :
    (insertMem x l).filter (fun m => decide (m.relevance = r))
      = if x.relevance = r then
          x :: l.filter (fun m => decide (m.relevance = r))
        else l.filter (fun m => decide (m.relevance = r)) := by
  induction l with
  | nil =>
      rw [insertMem]
      by_cases h1 : x.relevance = r
      · simp [List.filter, h1]
      · simp [List.filter, h1]
  | cons y ys ih =>
      rw [insertMem]
      by_cases hxy : x.relevance < y.relevance
      · rw [if_pos (decide_eq_true hxy)]
        simp only [List.filter_cons, ih]
        by_cases hx : x.relevance = r
        · have hy : ¬ y.relevance = r := by
            intro hy
            rw [← hx] at hy
            exact absurd (hy ▸ hxy) (lt_irrefl _)
          simp [hx, hy]
        · by_cases hy : y.relevance = r <;> simp [hx, hy]
      · rw [if_neg (fun hbad => hxy (of_decide_eq_true hbad))]
        simp only [List.filter_cons]
        by_cases hx : x.relevance = r
        · by_cases hy : y.relevance = r <;> simp [hx, hy]
        · by_cases hy : y.relevance = r <;> simp [hx, hy]

theorem filter_sortMemByRel (l : List Memory) (r : ℚ) :
    (sortMemByRel l).filter (fun m => decide (m.relevance = r))
      = l.filter (fun m => decide (m.relevance = r)) := by
  induction l with
  | nil => rfl
  | cons x xs ih =>
      rw [sortMemByRel, filter_insertMem, ih, List.filter_cons]
      by_cases hx : x.relevance = r <;> simp [hx]

theorem scored_relevance_gt (now : ℚ) (uid query : String)
    (store : List LearningRec) (m : Memory)
    (hm : m ∈ scoredCandidates now uid query store) : 1/10 < m.relevance := by
  simp only [scoredCandidates, List.mem_filterMap] at hm
  obtain ⟨d, _, he⟩ := hm
  by_cases hlt :
      1/10 < relevanceScore now query (extractKeywords (lowerStr query)) d
  · rw [if_pos hlt] at he
    injection he with h
    subst h
    exact hlt
  · rw [if_neg hlt] at he
    exact absurd he (by simp)

/-- Claim C5 as amended: retrieval drops facts with score at or below 0.1,
returns at most `limit` results in descending relevance order, and breaks
relevance ties by the scored-candidate order (the fetch order: confidence
descending, then `last_observed` descending) — the stable sort keeps the
candidate order on ties, it does not re-sort ties by `last_observed`. -/
theorem getRelevantMemories_spec (now : ℚ) (uid query : String) (limit : ℕ)
    (store : List LearningRec) :
    (∀ m ∈ getRelevantMemories now uid query limit store, 1/10 < m.relevance)
    ∧ (getRelevantMemories now uid query limit store).length ≤ limit
    ∧ List.Pairwise (fun a b => b.relevance ≤ a.relevance)
        (getRelevantMemories now uid query limit store)
    ∧ getRelevantMemories now uid query limit store
        = (sortMemByRel (scoredCandidates now uid query store)).take limit
    ∧ ∀ r : ℚ,
        (sortMemByRel (scoredCandidates now uid query store)).filter
            (fun m => decide (m.relevance = r))
          = (scoredCandidates now uid query store).filter
              (fun m => decide (m.relevance = r)) := by
  refine ⟨?_, ?_, ?_, rfl, fun r => filter_sortMemByRel _ r⟩
  · intro m hm
    have hmem : m ∈ sortMemByRel (scoredCandidates now uid query store) :=
      List.mem_of_mem_take hm
    have hmem2 : m ∈ scoredCandidates now uid query store :=
      (sortMemByRel_perm _).mem_iff.1 hmem
    exact scored_relevance_gt now uid query store m hmem2
  · rw [getRelevantMemories, List.length_take]
    exact min_le_left _ _
  · exact List.Pairwise.sublist (List.take_sublist _ _) (pairwise_sortMemByRel _)

/-- The active learning records of the user, in store order — the result set of
the query filtering on `user_id` and `is_active` in
`MemoryService._merge_similar_learnings`. -/
def activesOf (uid : String) (store : List LearningRec) : List LearningRec :=
  store.filter (fun r => r.user_id == uid && r.is_active)

/-- The duplicate-group key of the merge pass, the Python string
`f"{learning_type}:{key}"`. -/
def groupKey (r : LearningRec) : String := r.learning_type ++ ":" ++ r.key

/-- The duplicate group of `r`: all active records with the same group key,
in fetch order. -/
def groupIn (actives : List LearningRec) (r : LearningRec) : List LearningRec :=
  actives.filter (fun s => groupKey s == groupKey r)

/-- Python `max(learnings, key=lambda x: x.confidence)` starting from
accumulator `acc`: a later element replaces the current maximum only when
its confidence is strictly greater, so the first maximum wins. -/
def pyMax (acc : LearningRec) : List LearningRec → LearningRec
  | [] => acc
  | r :: rs => pyMax (if acc.confidence < r.confidence then r else acc) rs

/-- The survivor choice of the merge pass applied to a group (`max` over a
nonempty list; the default is returned only for an empty group, which the
caller never passes). -/
def groupPrimary : List LearningRec → LearningRec → LearningRec
  | [], d => d
  | p :: rest, _ => pyMax p rest

/-- One iteration of the per-loser folding loop of the merge pass: add the
evidence counters of the merged-away record `o` into the survivor `p` and
adopt a newer `last_observed`. -/
def mergeStep (p o : LearningRec) : LearningRec :=
  { p with
    times_observed := p.times_observed + o.times_observed
    times_reinforced := p.times_reinforced + o.times_reinforced
    times_contradicted := p.times_contradicted + o.times_contradicted
    last_observed :=
      if p.last_observed < o.last_observed then o.last_observed
      else p.last_observed }

/-- The per-loser folding loop of the merge pass. -/
def mergeFold (primary : LearningRec) (others : List LearningRec) : LearningRec :=
  others.foldl mergeStep primary

/-- The survivor after a merge: folded counters, confidence boosted by 1.1
capped at 1, validation score recomputed on the folded counters. -/
def mergeSurvivor (primary : LearningRec) (others : List LearningRec) : LearningRec :=
  let p1 := mergeFold primary others
  let p2 := { p1 with confidence := min (p1.confidence * (11/10)) 1 }
  { p2 with validation_score := calcValidationScore p2 }

/-- The effect of `MemoryService._merge_similar_learnings` on one record
(the source mutates the fetched ORM objects in place; with distinct record
ids this per-record update is the same function).  Inactive records and
singleton groups are untouched; in a group of two or more, the first
record of maximal confidence becomes the survivor and every other group
member is deactivated and marked superseded by it. -/
def mergeUpdate (actives : List LearningRec) (r : LearningRec) : LearningRec :=
  if r.is_active then
    if (groupIn actives r).length ≤ 1 then r
    else
      if r.id = (groupPrimary (groupIn actives r) r).id then
        mergeSurvivor (groupPrimary (groupIn actives r) r)
          ((groupIn actives r).filter
            (fun o => o.id != (groupPrimary (groupIn actives r) r).id))
      else { r with
             is_active := false,
             superseded_by := some (groupPrimary (groupIn actives r) r).id }
  else r

/-- `MemoryService._merge_similar_learnings` for one user over the whole
store: records of other users are untouched. -/
def mergeSimilarLearnings (uid : String) (store : List LearningRec) : List LearningRec :=
  store.map (fun r =>
    if r.user_id == uid then mergeUpdate (activesOf uid store) r else r)

/-- The group of active records sharing `(learning_type, key)` with `r`, the
identity the specification groups by. -/
def pairGroup (uid : String) (store : List LearningRec) (r : LearningRec) :
    List LearningRec :=
  (activesOf uid store).filter
    (fun s => s.learning_type == r.learning_type && s.key == r.key)

theorem pyMax_ge (l : List LearningRec) (acc : LearningRec) :
    acc.confidence ≤ (pyMax acc l).confidence
    ∧ ∀ x ∈ l, x.confidence ≤ (pyMax acc l).confidence := by
  induction l generalizing acc with
  | nil => exact ⟨le_refl _, by simp⟩
  | cons r rs ih =>
      simp only [pyMax]
      obtain ⟨h1, h2⟩ := ih (if acc.confidence < r.confidence then r else acc)
      have ha : acc.confidence ≤ (if acc.confidence < r.confidence then r else acc).confidence := by
        by_cases h : acc.confidence < r.confidence
        · rw [if_pos h]; exact le_of_lt h
        · rw [if_neg h]
      have hr : r.confidence ≤ (if acc.confidence < r.confidence then r else acc).confidence := by
        by_cases h : acc.confidence < r.confidence
        · rw [if_pos h]
        · rw [if_neg h]; exact le_of_not_lt h
      refine ⟨le_trans ha h1, ?_⟩
      intro x hx
      rcases List.mem_cons.1 hx with rfl | hx2
      · exact le_trans hr h1
      · exact h2 x hx2

theorem pyMax_decomp (l : List LearningRec) (acc : LearningRec) :
    ∃ pre post, acc :: l = pre ++ (pyMax acc l) :: post
      ∧ ∀ x ∈ pre, x.confidence < (pyMax acc l).confidence := by
  induction l generalizing acc with
  | nil => exact ⟨[], [], rfl, by simp⟩
  | cons r rs ih =>
      simp only [pyMax]
      by_cases h : acc.confidence < r.confidence
      · rw [if_pos h]
        obtain ⟨pre, post, hdec, hlt⟩ := ih r
        refine ⟨acc :: pre, post, ?_, ?_⟩
        · rw [List.cons_append, ← hdec]
        · intro x hx
          rcases List.mem_cons.1 hx with rfl | hx2
          · exact lt_of_lt_of_le h (pyMax_ge rs r).1
          · exact hlt x hx2
      · rw [if_neg h]
        obtain ⟨pre, post, hdec, hlt⟩ := ih acc
        cases pre with
        | nil =>
            rw [List.nil_append] at hdec
            have hacc : acc = pyMax acc rs := (List.cons.inj hdec).1
            refine ⟨[], r :: rs, ?_, by simp⟩
            rw [List.nil_append, ← hacc]
        | cons a pre2 =>
            rw [List.cons_append] at hdec
            have h1 := List.cons.inj hdec
            refine ⟨acc :: r :: pre2, post, ?_, ?_⟩
            · rw [List.cons_append, List.cons_append]
              conv_lhs => rw [h1.2]
            · intro x hx
              rcases List.mem_cons.1 hx with rfl | hx2
              · have := hlt a (List.mem_cons_self _ _)
                rw [← h1.1] at this
                exact this
              · rcases List.mem_cons.1 hx2 with rfl | hx3
                · have hax : x.confidence ≤ acc.confidence := le_of_not_lt h
                  have := hlt a (List.mem_cons_self _ _)
                  rw [← h1.1] at this
                  exact lt_of_le_of_lt hax this
                · exact hlt x (List.mem_cons_of_mem a hx3)

theorem pyMax_mem (l : List LearningRec) (acc : LearningRec) :
    pyMax acc l ∈ acc :: l := by
  obtain ⟨pre, post, hdec, _⟩ := pyMax_decomp l acc
  rw [hdec]
  exact List.mem_append.2 (Or.inr (List.mem_cons_self _ _))

/-- Claim C9 as amended: in a nonempty duplicate group the merge pass
survivor is the record of maximal confidence, and on ties the FIRST such
record in fetched group order wins (everything before the survivor has
strictly smaller confidence) — the tie-break is list position, not
earliest `created_at`. -/
theorem merge_survivor_first_max (p d : LearningRec) (rest : List LearningRec) :
    groupPrimary (p :: rest) d ∈ p :: rest
    ∧ (∀ x ∈ p :: rest, x.confidence ≤ (groupPrimary (p :: rest) d).confidence)
    ∧ ∃ pre post, p :: rest = pre ++ (groupPrimary (p :: rest) d) :: post
        ∧ ∀ x ∈ pre, x.confidence < (groupPrimary (p :: rest) d).confidence := by
  refine ⟨pyMax_mem rest p, ?_, pyMax_decomp rest p⟩
  intro x hx
  obtain ⟨h1, h2⟩ := pyMax_ge rest p
  rcases List.mem_cons.1 hx with rfl | hx2
  · exact h1
  · exact h2 x hx2

/-- Older duplicate record (earlier `created_at`), confidence 0.5. -/
def rec9A : LearningRec :=
  { baseRec with
    id := 1
    key := "city"
    value := "Toronto"
    confidence := 1/2
    created_at := 0 }

/-- Newer duplicate record (later `created_at`), same confidence 0.5. -/
def rec9B : LearningRec :=
  { baseRec with
    id := 2
    key := "city"
    value := "Ottawa"
    confidence := 1/2
    created_at := 1 }

/-- Counterexample to claim C9: with two group members tied on confidence,
the record fetched first survives even when it has the LATER `created_at`;
the earlier-created record is deactivated and superseded.  So the tie-break
is fetched-list position, not earliest `created_at`. -/
theorem merge_survivor_created_at_cex :
    rec9A.confidence = rec9B.confidence
    ∧ rec9A.created_at < rec9B.created_at
    ∧ (mergeSimilarLearnings "u" [rec9B, rec9A]).map
        (fun s => (s.id, s.is_active, s.superseded_by))
      = [(2, true, none), (1, false, some 2)] := by
  refine ⟨by norm_num [rec9A, rec9B, baseRec], by norm_num [rec9A, rec9B, baseRec], ?_⟩
  norm_num [mergeSimilarLearnings, activesOf, List.filter, mergeUpdate, groupIn,
    groupKey, groupPrimary, pyMax, mergeSurvivor, mergeFold, mergeStep,
    calcValidationScore, List.foldl, bne, rec9A, rec9B, baseRec]

theorem mergeFold_counts (os : List LearningRec) (p : LearningRec) :
    (mergeFold p os).times_observed
        = p.times_observed + (os.map (fun o => o.times_observed)).sum
    ∧ (mergeFold p os).times_reinforced
        = p.times_reinforced + (os.map (fun o => o.times_reinforced)).sum
    ∧ (mergeFold p os).times_contradicted
        = p.times_contradicted + (os.map (fun o => o.times_contradicted)).sum := by
  induction os generalizing p with
  | nil => exact ⟨rfl, rfl, rfl⟩
  | cons o os ih =>
      have he : mergeFold p (o :: os) = mergeFold (mergeStep p o) os := rfl
      obtain ⟨h1, h2, h3⟩ := ih (mergeStep p o)
      rw [he]
      refine ⟨?_, ?_, ?_⟩
      · rw [h1]; simp only [mergeStep, List.map_cons, List.sum_cons]; omega
      · rw [h2]; simp only [mergeStep, List.map_cons, List.sum_cons]; omega
      · rw [h3]; simp only [mergeStep, List.map_cons, List.sum_cons]; omega

theorem mergeFold_fields (os : List LearningRec) (p : LearningRec) :
    (mergeFold p os).id = p.id ∧ (mergeFold p os).user_id = p.user_id
    ∧ (mergeFold p os).learning_type = p.learning_type
    ∧ (mergeFold p os).key = p.key
    ∧ (mergeFold p os).is_active = p.is_active
    ∧ (mergeFold p os).confidence = p.confidence := by
  induction os generalizing p with
  | nil => exact ⟨rfl, rfl, rfl, rfl, rfl, rfl⟩
  | cons o os ih =>
      have he : mergeFold p (o :: os) = mergeFold (mergeStep p o) os := rfl
      rw [he]
      exact ih (mergeStep p o)

theorem mergeSurvivor_fields (p : LearningRec) (os : List LearningRec) :
    (mergeSurvivor p os).id = p.id ∧ (mergeSurvivor p os).user_id = p.user_id
    ∧ (mergeSurvivor p os).learning_type = p.learning_type
    ∧ (mergeSurvivor p os).key = p.key
    ∧ (mergeSurvivor p os).is_active = p.is_active
    ∧ (mergeSurvivor p os).times_observed
        = p.times_observed + (os.map (fun o => o.times_observed)).sum
    ∧ (mergeSurvivor p os).times_reinforced
        = p.times_reinforced + (os.map (fun o => o.times_reinforced)).sum
    ∧ (mergeSurvivor p os).times_contradicted
        = p.times_contradicted + (os.map (fun o => o.times_contradicted)).sum := by
  obtain ⟨f1, f2, f3, f4, f5, _⟩ := mergeFold_fields os p
  obtain ⟨c1, c2, c3⟩ := mergeFold_counts os p
  exact ⟨f1, f2, f3, f4, f5, c1, c2, c3⟩

theorem mem_activesOf (uid : String) (store : List LearningRec) (s : LearningRec) :
    s ∈ activesOf uid store ↔ s ∈ store ∧ s.user_id = uid ∧ s.is_active = true := by
  simp [activesOf, List.mem_filter, Bool.and_eq_true, beq_iff_eq, and_assoc]

theorem mem_groupIn (A : List LearningRec) (r s : LearningRec) :
    s ∈ groupIn A r ↔ s ∈ A ∧ groupKey s = groupKey r := by
  simp [groupIn, List.mem_filter, beq_iff_eq]

theorem groupIn_congr (A : List LearningRec) (r s : LearningRec)
    (h : groupKey s = groupKey r) : groupIn A s = groupIn A r := by
  unfold groupIn
  apply List.filter_congr
  intro x _
  rw [h]

theorem groupPrimary_irrel (g : List LearningRec) (d1 d2 : LearningRec)
    (h : g ≠ []) : groupPrimary g d1 = groupPrimary g d2 := by
  cases g with
  | nil => exact absurd rfl h
  | cons p rest => rfl

theorem sum_counts_split (f : LearningRec → ℕ) (l : List LearningRec)
    (hnd : (l.map (fun s => s.id)).Nodup) (a : LearningRec) (ha : a ∈ l) :
    (l.map f).sum = f a + ((l.filter (fun o => o.id != a.id)).map f).sum := by
  induction l with
  | nil => cases ha
  | cons b t ih =>
      rw [List.map_cons, List.nodup_cons] at hnd
      rcases List.mem_cons.1 ha with rfl | hat
      · have hfilter : t.filter (fun o => o.id != a.id) = t := by
          apply List.filter_eq_self.2
          intro o ho
          rw [bne_iff_ne]
          intro he
          exact hnd.1 (he ▸ List.mem_map_of_mem (fun s => s.id) ho)
        have hself : (a.id != a.id) = false := by simp
        simp [List.filter_cons, hself, hfilter, List.sum_cons]
      · have hb : (b.id != a.id) = true := by
          rw [bne_iff_ne]
          intro he
          exact hnd.1 (by rw [he]; exact List.mem_map_of_mem (fun s => s.id) hat)
        rw [List.filter_cons, hb]
        simp only [if_true, List.map_cons, List.sum_cons, ih hnd.2 hat]
        omega

theorem eq_of_id_eq (l : List LearningRec)
    (hnd : (l.map (fun s => s.id)).Nodup) (a b : LearningRec)
    (ha : a ∈ l) (hb : b ∈ l) (hid : a.id = b.id) : a = b :=
  List.inj_on_of_nodup_map hnd ha hb hid

theorem colon_append_inj : ∀ (a c b d : List Char), ':' ∉ a → ':' ∉ c →
    a ++ ':' :: b = c ++ ':' :: d → a = c ∧ b = d
  | [], [], _, _, _, _, h => ⟨rfl, (List.cons.inj h).2⟩
  | [], y :: cs, _, _, _, hc, h => by
      rw [List.nil_append, List.cons_append] at h
      have h1 := List.cons.inj h
      rw [← h1.1] at hc
      exact absurd (List.mem_cons_self _ _) hc
  | x :: as, [], _, _, ha, _, h => by
      rw [List.cons_append, List.nil_append] at h
      have h1 := List.cons.inj h
      rw [h1.1] at ha
      exact absurd (List.mem_cons_self _ _) ha
  | x :: as, y :: cs, b, d, ha, hc, h => by
      rw [List.cons_append, List.cons_append] at h
      have h1 := List.cons.inj h
      have ihr := colon_append_inj as cs b d
        (fun hm => ha (List.mem_cons_of_mem _ hm))
        (fun hm => hc (List.mem_cons_of_mem _ hm)) h1.2
      exact ⟨by rw [h1.1, ihr.1], ihr.2⟩

theorem groupKey_eq_iff (s r : LearningRec)
    (hs : ':' ∉ s.learning_type.data) (hr : ':' ∉ r.learning_type.data) :
    groupKey s = groupKey r ↔ s.learning_type = r.learning_type ∧ s.key = r.key := by
  constructor
  · intro h
    unfold groupKey at h
    have hd : (s.learning_type ++ ":" ++ s.key).data
        = (r.learning_type ++ ":" ++ r.key).data := by rw [h]
    have hcolon : (":" : String).data = [':'] := rfl
    rw [String.data_append, String.data_append, String.data_append,
      String.data_append, hcolon, List.append_assoc, List.append_assoc,
      List.singleton_append, List.singleton_append] at hd
    obtain ⟨h1, h2⟩ := colon_append_inj _ _ _ _ hs hr hd
    exact ⟨String.ext h1, String.ext h2⟩
  · rintro ⟨h1, h2⟩
    unfold groupKey
    rw [h1, h2]

theorem pairGroup_eq_groupIn (uid : String) (store : List LearningRec)
    (r : LearningRec) (hcf : ∀ s ∈ store, ':' ∉ s.learning_type.data)
    (hr : r ∈ store) :
    pairGroup uid store r = groupIn (activesOf uid store) r := by
  unfold pairGroup groupIn
  apply List.filter_congr
  intro s hs
  have hs2 : s ∈ store := ((mem_activesOf uid store s).1 hs).1
  have hiff := groupKey_eq_iff s r (hcf s hs2) (hcf r hr)
  rw [Bool.eq_iff_iff]
  simp only [Bool.and_eq_true, beq_iff_eq]
  exact hiff.symm

theorem mergeUpdate_inactive (A : List LearningRec) (r : LearningRec)
    (h : r.is_active = false) : mergeUpdate A r = r := by
  unfold mergeUpdate
  rw [if_neg (by simp [h])]

theorem mergeUpdate_small (A : List LearningRec) (r : LearningRec)
    (h : (groupIn A r).length ≤ 1) : mergeUpdate A r = r := by
  unfold mergeUpdate
  by_cases hact : r.is_active = true
  · rw [if_pos hact, if_pos h]
  · rw [if_neg (by simp_all)]

theorem mergeUpdate_survivor (A : List LearningRec) (r : LearningRec)
    (hact : r.is_active = true) (hlen : ¬ (groupIn A r).length ≤ 1)
    (hid : r.id = (groupPrimary (groupIn A r) r).id) :
    mergeUpdate A r = mergeSurvivor (groupPrimary (groupIn A r) r)
      ((groupIn A r).filter
        (fun o => o.id != (groupPrimary (groupIn A r) r).id)) := by
  unfold mergeUpdate
  rw [if_pos hact, if_neg hlen, if_pos hid]

theorem mergeUpdate_loser (A : List LearningRec) (r : LearningRec)
    (hact : r.is_active = true) (hlen : ¬ (groupIn A r).length ≤ 1)
    (hid : ¬ r.id = (groupPrimary (groupIn A r) r).id) :
    mergeUpdate A r = { r with
      is_active := false,
      superseded_by := some (groupPrimary (groupIn A r) r).id } := by
  unfold mergeUpdate
  rw [if_pos hact, if_neg hlen, if_neg hid]

theorem mergeSimilar_mem (uid : String) (store : List LearningRec)
    (r : LearningRec) (hr : r ∈ store) (hu : r.user_id = uid) :
    mergeUpdate (activesOf uid store) r ∈ mergeSimilarLearnings uid store := by
  unfold mergeSimilarLearnings
  have he : (fun x => if x.user_id == uid then mergeUpdate (activesOf uid store) x else x) r
      = mergeUpdate (activesOf uid store) r := by
    simp [hu]
  rw [← he]
  exact List.mem_map_of_mem _ hr

/-- Claim C3: in any duplicate group (two or more active records of one
user sharing `(learning_type, key)`, with distinct record ids and
colon-free learning types as stored by the engine), after the merge pass
the store contains a survivor carrying the survivor id whose three evidence
counters equal the sums of those counters over the whole group, and every
other group member reappears deactivated with `superseded_by` set to the
survivor id. -/
theorem merge_evidence_conservation (uid : String) (store : List LearningRec)
    (r : LearningRec)
    (hnd : (store.map (fun s => s.id)).Nodup)
    (hcf : ∀ s ∈ store, ':' ∉ s.learning_type.data)
    (hr : r ∈ store) (hu : r.user_id = uid) (ha : r.is_active = true)
    (hg : 2 ≤ (pairGroup uid store r).length) :
    (∃ s ∈ mergeSimilarLearnings uid store,
        s.id = (groupPrimary (pairGroup uid store r) r).id
        ∧ s.times_observed
            = ((pairGroup uid store r).map (fun x => x.times_observed)).sum
        ∧ s.times_reinforced
            = ((pairGroup uid store r).map (fun x => x.times_reinforced)).sum
        ∧ s.times_contradicted
            = ((pairGroup uid store r).map (fun x => x.times_contradicted)).sum)
    ∧ ∀ o ∈ pairGroup uid store r,
        o.id ≠ (groupPrimary (pairGroup uid store r) r).id →
        { o with is_active := false,
                 superseded_by := some (groupPrimary (pairGroup uid store r) r).id }
          ∈ mergeSimilarLearnings uid store := by
  have hpg := pairGroup_eq_groupIn uid store r hcf hr
  rw [hpg] at hg ⊢
  set A := activesOf uid store with hA
  set g := groupIn A r with hgdef
  have hrA : r ∈ A := by
    rw [hA]
    exact (mem_activesOf uid store r).2 ⟨hr, hu, ha⟩
  have hrg : r ∈ g := by
    rw [hgdef]
    exact (mem_groupIn A r r).2 ⟨hrA, rfl⟩
  have hgne : g ≠ [] := by
    intro h0
    rw [h0] at hrg
    cases hrg
  have hglen : ¬ g.length ≤ 1 := by omega
  set P := groupPrimary g r with hP
  have hpmem : P ∈ g := by
    rw [hP]
    cases hgc : g with
    | nil => exact absurd hgc hgne
    | cons p0 rest =>
        simp only [groupPrimary]
        exact pyMax_mem rest p0
  have hpmem2 : P ∈ groupIn A r := by rw [← hgdef]; exact hpmem
  obtain ⟨hpA, hpkey⟩ := (mem_groupIn A r P).1 hpmem2
  have hpA2 : P ∈ activesOf uid store := by rw [← hA]; exact hpA
  obtain ⟨hpstore, hpu, hpa⟩ := (mem_activesOf uid store P).1 hpA2
  have hgP : groupIn A P = g := by
    rw [hgdef]
    exact groupIn_congr A r P hpkey
  have hPP : groupPrimary g P = P := by
    rw [hP]
    exact groupPrimary_irrel g P r hgne
  have hsurv : mergeUpdate A P
      = mergeSurvivor P (g.filter (fun o => o.id != P.id)) := by
    have hstep := mergeUpdate_survivor A P hpa
      (by rw [hgP]; exact hglen) (by rw [hgP, hPP])
    rw [hgP, hPP] at hstep
    exact hstep
  have hmem : mergeSurvivor P (g.filter (fun o => o.id != P.id))
      ∈ mergeSimilarLearnings uid store := by
    rw [← hsurv]
    have hm := mergeSimilar_mem uid store P hpstore hpu
    rw [← hA] at hm
    exact hm
  have hgnd : (g.map (fun s => s.id)).Nodup := by
    rw [hgdef, hA]
    have hsub : List.Sublist (groupIn (activesOf uid store) r) store :=
      (List.filter_sublist _).trans (List.filter_sublist _)
    exact List.Nodup.sublist (hsub.map _) hnd
  obtain ⟨sf1, _, _, _, _, sc1, sc2, sc3⟩ :=
    mergeSurvivor_fields P (g.filter (fun o => o.id != P.id))
  have hs1 := sum_counts_split (fun x => x.times_observed) g hgnd P hpmem
  have hs2 := sum_counts_split (fun x => x.times_reinforced) g hgnd P hpmem
  have hs3 := sum_counts_split (fun x => x.times_contradicted) g hgnd P hpmem
  refine ⟨⟨mergeSurvivor P (g.filter (fun o => o.id != P.id)), hmem,
      sf1, ?_, ?_, ?_⟩, ?_⟩
  · rw [sc1, hs1]
  · rw [sc2, hs2]
  · rw [sc3, hs3]
  · intro o ho hone
    have hog : o ∈ groupIn A r := by rw [← hgdef]; exact ho
    obtain ⟨hoA, hokey⟩ := (mem_groupIn A r o).1 hog
    have hoA2 : o ∈ activesOf uid store := by rw [← hA]; exact hoA
    obtain ⟨hostore, hou, hoa⟩ := (mem_activesOf uid store o).1 hoA2
    have hgo : groupIn A o = g := by
      rw [hgdef]
      exact groupIn_congr A r o hokey
    have hoP : groupPrimary g o = P := by
      rw [hP]
      exact groupPrimary_irrel g o r hgne
    have hlose : mergeUpdate A o
        = { o with is_active := false, superseded_by := some P.id } := by
      have hstep := mergeUpdate_loser A o hoa
        (by rw [hgo]; exact hglen) (by rw [hgo, hoP]; exact hone)
      rw [hgo, hoP] at hstep
      exact hstep
    rw [← hlose]
    have hm := mergeSimilar_mem uid store o hostore hou
    rw [← hA] at hm
    exact hm

/-- Witness for claim C3 on a concrete two-record duplicate group. -/
theorem merge_evidence_conservation_witness :
    2 ≤ (pairGroup "u" [rec9B, rec9A] rec9A).length
    ∧ ∃ s ∈ mergeSimilarLearnings "u" [rec9B, rec9A],
        s.id = (groupPrimary (pairGroup "u" [rec9B, rec9A] rec9A) rec9A).id
        ∧ s.times_observed
            = ((pairGroup "u" [rec9B, rec9A] rec9A).map (fun x => x.times_observed)).sum
        ∧ s.times_reinforced
            = ((pairGroup "u" [rec9B, rec9A] rec9A).map (fun x => x.times_reinforced)).sum
        ∧ s.times_contradicted
            = ((pairGroup "u" [rec9B, rec9A] rec9A).map (fun x => x.times_contradicted)).sum :=
  ⟨by decide,
   (merge_evidence_conservation "u" [rec9B, rec9A] rec9A (by decide) (by decide)
      (List.mem_cons_of_mem _ (List.mem_cons_self _ _)) (by decide) (by decide)
      (by decide)).1⟩

theorem map_eq_self_of_mem {α : Type} (l : List α) (f : α → α)
    (h : ∀ a ∈ l, f a = a) : l.map f = l := by
  induction l with
  | nil => rfl
  | cons a t ih =>
      rw [List.map_cons, h a (List.mem_cons_self a t),
        ih (fun x hx => h x (List.mem_cons_of_mem a hx))]

theorem length_le_one_of_all_eq {α : Type} (l : List α) (hnd : l.Nodup)
    (a : α) (h : ∀ x ∈ l, x = a) : l.length ≤ 1 := by
  cases l with
  | nil => simp
  | cons x t =>
      cases t with
      | nil => simp
      | cons y u =>
          rw [List.nodup_cons] at hnd
          have hx := h x (List.mem_cons_self _ _)
          have hy := h y (List.mem_cons_of_mem _ (List.mem_cons_self _ _))
          exact absurd (by rw [hx, hy]; exact List.mem_cons_self _ _ : x ∈ y :: u) hnd.1

theorem eq_of_mem_of_length_le_one {α : Type} (l : List α)
    (h : l.length ≤ 1) (a b : α) (ha : a ∈ l) (hb : b ∈ l) : a = b := by
  cases l with
  | nil => cases ha
  | cons x t =>
      cases t with
      | nil =>
          rcases List.mem_cons.1 ha with rfl | h2
          · rcases List.mem_cons.1 hb with rfl | h3
            · rfl
            · cases h3
          · cases h2
      | cons y u => simp at h

theorem groupPrimary_mem (A : List LearningRec) (r : LearningRec)
    (hne : groupIn A r ≠ []) :
    groupPrimary (groupIn A r) r ∈ groupIn A r := by
  cases hgc : groupIn A r with
  | nil => exact absurd hgc hne
  | cons p0 rest =>
      simp only [groupPrimary]
      exact pyMax_mem rest p0

theorem mergeUpdate_id (A : List LearningRec) (r : LearningRec) :
    (mergeUpdate A r).id = r.id := by
  unfold mergeUpdate
  by_cases hact : r.is_active = true
  · rw [if_pos hact]
    by_cases hlen : (groupIn A r).length ≤ 1
    · rw [if_pos hlen]
    · rw [if_neg hlen]
      by_cases hid : r.id = (groupPrimary (groupIn A r) r).id
      · rw [if_pos hid]
        obtain ⟨f1, _⟩ := mergeSurvivor_fields (groupPrimary (groupIn A r) r)
          ((groupIn A r).filter
            (fun o => o.id != (groupPrimary (groupIn A r) r).id))
        rw [f1, ← hid]
      · rw [if_neg hid]
  · rw [if_neg hact]

theorem mergeUpdate_groupKey (A : List LearningRec) (r : LearningRec) :
    groupKey (mergeUpdate A r) = groupKey r := by
  unfold mergeUpdate
  by_cases hact : r.is_active = true
  · rw [if_pos hact]
    by_cases hlen : (groupIn A r).length ≤ 1
    · rw [if_pos hlen]
    · rw [if_neg hlen]
      have hne : groupIn A r ≠ [] := by
        intro h0
        rw [h0] at hlen
        simp at hlen
      have hpkey : groupKey (groupPrimary (groupIn A r) r) = groupKey r :=
        ((mem_groupIn A r _).1 (groupPrimary_mem A r hne)).2
      by_cases hid : r.id = (groupPrimary (groupIn A r) r).id
      · rw [if_pos hid]
        obtain ⟨_, _, f3, f4, _⟩ := mergeSurvivor_fields (groupPrimary (groupIn A r) r)
          ((groupIn A r).filter
            (fun o => o.id != (groupPrimary (groupIn A r) r).id))
        have hks : groupKey (mergeSurvivor (groupPrimary (groupIn A r) r)
            ((groupIn A r).filter
              (fun o => o.id != (groupPrimary (groupIn A r) r).id)))
            = groupKey (groupPrimary (groupIn A r) r) := by
          unfold groupKey
          rw [f3, f4]
        rw [hks, hpkey]
      · rw [if_neg hid]
        rfl
  · rw [if_neg hact]

theorem mergeUpdate_user (uid : String) (store : List LearningRec)
    (r : LearningRec) (hu : r.user_id = uid) :
    (mergeUpdate (activesOf uid store) r).user_id = uid := by
  unfold mergeUpdate
  by_cases hact : r.is_active = true
  · rw [if_pos hact]
    by_cases hlen : (groupIn (activesOf uid store) r).length ≤ 1
    · rw [if_pos hlen]; exact hu
    · rw [if_neg hlen]
      have hne : groupIn (activesOf uid store) r ≠ [] := by
        intro h0
        rw [h0] at hlen
        simp at hlen
      have hpA : groupPrimary (groupIn (activesOf uid store) r) r ∈ activesOf uid store :=
        ((mem_groupIn _ r _).1 (groupPrimary_mem _ r hne)).1
      have hpuser : (groupPrimary (groupIn (activesOf uid store) r) r).user_id = uid :=
        ((mem_activesOf uid store _).1 hpA).2.1
      by_cases hid : r.id = (groupPrimary (groupIn (activesOf uid store) r) r).id
      · rw [if_pos hid]
        obtain ⟨_, f2, _⟩ := mergeSurvivor_fields
          (groupPrimary (groupIn (activesOf uid store) r) r)
          ((groupIn (activesOf uid store) r).filter
            (fun o => o.id != (groupPrimary (groupIn (activesOf uid store) r) r).id))
        rw [f2, hpuser]
      · rw [if_neg hid]; exact hu
  · rw [if_neg hact]; exact hu

theorem mergeUpdate_active_iff (uid : String) (store : List LearningRec)
    (r : LearningRec) :
    (mergeUpdate (activesOf uid store) r).is_active = true ↔
      (r.is_active = true ∧ ((groupIn (activesOf uid store) r).length ≤ 1
        ∨ r.id = (groupPrimary (groupIn (activesOf uid store) r) r).id)) := by
  by_cases hact : r.is_active = true
  · by_cases hlen : (groupIn (activesOf uid store) r).length ≤ 1
    · rw [mergeUpdate_small _ r hlen]
      exact ⟨fun h => ⟨h, Or.inl hlen⟩, fun h => h.1⟩
    · have hne : groupIn (activesOf uid store) r ≠ [] := by
        intro h0
        rw [h0] at hlen
        simp at hlen
      by_cases hid : r.id = (groupPrimary (groupIn (activesOf uid store) r) r).id
      · rw [mergeUpdate_survivor _ r hact hlen hid]
        obtain ⟨_, _, _, _, f5, _⟩ := mergeSurvivor_fields
          (groupPrimary (groupIn (activesOf uid store) r) r)
          ((groupIn (activesOf uid store) r).filter
            (fun o => o.id != (groupPrimary (groupIn (activesOf uid store) r) r).id))
        have hpA : groupPrimary (groupIn (activesOf uid store) r) r ∈ activesOf uid store :=
          ((mem_groupIn _ r _).1 (groupPrimary_mem _ r hne)).1
        have hpact : (groupPrimary (groupIn (activesOf uid store) r) r).is_active = true :=
          ((mem_activesOf uid store _).1 hpA).2.2
        rw [f5, hpact]
        exact ⟨fun _ => ⟨hact, Or.inr hid⟩, fun _ => rfl⟩
      · rw [mergeUpdate_loser _ r hact hlen hid]
        constructor
        · intro h
          cases h
        · rintro ⟨_, hsm | hpid⟩
          · exact absurd hsm hlen
          · exact absurd hpid hid
  · rw [mergeUpdate_inactive _ r (by
      cases hb : r.is_active
      · rfl
      · exact absurd hb hact)]
    constructor
    · intro h
      exact absurd h hact
    · rintro ⟨h, _⟩
      exact absurd h hact

theorem mergeSimilarLearnings_ids (uid : String) (store : List LearningRec) :
    (mergeSimilarLearnings uid store).map (fun s => s.id)
      = store.map (fun s => s.id) := by
  unfold mergeSimilarLearnings
  rw [List.map_map]
  apply List.map_congr_left
  intro x _
  show ((if x.user_id == uid then mergeUpdate (activesOf uid store) x else x)).id = x.id
  by_cases hxu : x.user_id = uid
  · rw [if_pos (by simp [hxu])]
    exact mergeUpdate_id _ x
  · rw [if_neg (by simp [hxu])]

/-- Claim C4: the merge pass is idempotent — on any store with distinct
record ids, running `_merge_similar_learnings` twice gives exactly the
state after running it once (after one pass every duplicate group has a
single active member, so the second pass touches nothing). -/
theorem merge_idempotent (uid : String) (store : List LearningRec)
    (hnd : (store.map (fun s => s.id)).Nodup) :
    mergeSimilarLearnings uid (mergeSimilarLearnings uid store)
      = mergeSimilarLearnings uid store := by
  have hids : (mergeSimilarLearnings uid store).map (fun s => s.id)
      = store.map (fun s => s.id) := mergeSimilarLearnings_ids uid store
  have hndm : ((mergeSimilarLearnings uid store).map (fun s => s.id)).Nodup := by
    rw [hids]
    exact hnd
  have hm_nodup : (mergeSimilarLearnings uid store).Nodup :=
    List.Nodup.of_map _ hndm
  have hmem_m : ∀ y ∈ mergeSimilarLearnings uid store, ∃ x, x ∈ store ∧
      y = if x.user_id == uid then mergeUpdate (activesOf uid store) x else x := by
    intro y hy
    unfold mergeSimilarLearnings at hy
    obtain ⟨x, hx, hxy⟩ := List.mem_map.1 hy
    exact ⟨x, hx, hxy.symm⟩
  have huniq : ∀ a ∈ activesOf uid (mergeSimilarLearnings uid store),
      ∀ b ∈ activesOf uid (mergeSimilarLearnings uid store),
      groupKey a = groupKey b → a = b := by
    intro a haA b hbA hab
    obtain ⟨hamem, hau, haact⟩ := (mem_activesOf _ _ a).1 haA
    obtain ⟨hbmem, hbu, hbact⟩ := (mem_activesOf _ _ b).1 hbA
    obtain ⟨x, hx, hxa⟩ := hmem_m a hamem
    obtain ⟨y, hy, hyb⟩ := hmem_m b hbmem
    have hxu : x.user_id = uid := by
      by_contra hxu
      rw [if_neg (by simp [hxu])] at hxa
      rw [hxa] at hau
      exact hxu hau
    rw [if_pos (by simp [hxu])] at hxa
    have hyu : y.user_id = uid := by
      by_contra hyu
      rw [if_neg (by simp [hyu])] at hyb
      rw [hyb] at hbu
      exact hyu hbu
    rw [if_pos (by simp [hyu])] at hyb
    have hxkey : groupKey a = groupKey x := by
      rw [hxa]
      exact mergeUpdate_groupKey _ x
    have hykey : groupKey b = groupKey y := by
      rw [hyb]
      exact mergeUpdate_groupKey _ y
    rw [hxa] at haact
    rw [hyb] at hbact
    obtain ⟨hxact1, hxcase⟩ := (mergeUpdate_active_iff uid store x).1 haact
    obtain ⟨hyact1, hycase⟩ := (mergeUpdate_active_iff uid store y).1 hbact
    have hxstoreA : x ∈ activesOf uid store :=
      (mem_activesOf _ _ x).2 ⟨hx, hxu, hxact1⟩
    have hystoreA : y ∈ activesOf uid store :=
      (mem_activesOf _ _ y).2 ⟨hy, hyu, hyact1⟩
    have hkxy : groupKey x = groupKey y := by
      calc groupKey x = groupKey a := hxkey.symm
        _ = groupKey b := hab
        _ = groupKey y := hykey
    have hgxy : groupIn (activesOf uid store) x = groupIn (activesOf uid store) y :=
      groupIn_congr _ y x hkxy
    have hxing : x ∈ groupIn (activesOf uid store) x :=
      (mem_groupIn _ x x).2 ⟨hxstoreA, rfl⟩
    have hying : y ∈ groupIn (activesOf uid store) x := by
      rw [hgxy]
      exact (mem_groupIn _ y y).2 ⟨hystoreA, rfl⟩
    have hxy_eq : x = y := by
      rcases hxcase with hsmall | hxid
      · exact eq_of_mem_of_length_le_one _ hsmall x y hxing hying
      · rcases hycase with hsmall2 | hyid
        · have hsm : (groupIn (activesOf uid store) x).length ≤ 1 := by
            rw [hgxy]
            exact hsmall2
          exact eq_of_mem_of_length_le_one _ hsm x y hxing hying
        · have hne : groupIn (activesOf uid store) x ≠ [] := by
            intro h0
            rw [h0] at hxing
            cases hxing
          have hpp : groupPrimary (groupIn (activesOf uid store) x) x
              = groupPrimary (groupIn (activesOf uid store) y) y := by
            rw [hgxy]
            exact groupPrimary_irrel _ x y (by rw [← hgxy]; exact hne)
          rw [hpp] at hxid
          exact eq_of_id_eq store hnd x y hx hy (hxid.trans hyid.symm)
    rw [hxa, hyb, hxy_eq]
  have hfix : ∀ z ∈ mergeSimilarLearnings uid store,
      (if z.user_id == uid then
        mergeUpdate (activesOf uid (mergeSimilarLearnings uid store)) z
      else z) = z := by
    intro z hz
    by_cases hzu : z.user_id = uid
    · rw [if_pos (by simp [hzu])]
      by_cases hzact : z.is_active = true
      · have hzA : z ∈ activesOf uid (mergeSimilarLearnings uid store) :=
          (mem_activesOf _ _ z).2 ⟨hz, hzu, hzact⟩
        have hallz : ∀ w ∈ groupIn (activesOf uid (mergeSimilarLearnings uid store)) z,
            w = z := by
          intro w hw
          obtain ⟨hwA, hwkey⟩ := (mem_groupIn _ z w).1 hw
          exact huniq w hwA z hzA hwkey
        have hnodupg :
            (groupIn (activesOf uid (mergeSimilarLearnings uid store)) z).Nodup := by
          have hsub : List.Sublist
              (groupIn (activesOf uid (mergeSimilarLearnings uid store)) z)
              (mergeSimilarLearnings uid store) :=
            (List.filter_sublist _).trans (List.filter_sublist _)
          exact List.Nodup.sublist hsub hm_nodup
        exact mergeUpdate_small _ z
          (length_le_one_of_all_eq _ hnodupg z hallz)
      · exact mergeUpdate_inactive _ z (by
          cases hb : z.is_active
          · rfl
          · exact absurd hb hzact)
    · rw [if_neg (by simp [hzu])]
  exact map_eq_self_of_mem (mergeSimilarLearnings uid store)
    (fun r => if r.user_id == uid then
        mergeUpdate (activesOf uid (mergeSimilarLearnings uid store)) r
      else r) hfix

/-- Witness for claim C4 on a concrete two-record store. -/
theorem merge_idempotent_witness :
    (([rec9B, rec9A] : List LearningRec).map (fun s => s.id)).Nodup
    ∧ mergeSimilarLearnings "u" (mergeSimilarLearnings "u" [rec9B, rec9A])
        = mergeSimilarLearnings "u" [rec9B, rec9A] :=
  ⟨by decide, merge_idempotent "u" [rec9B, rec9A] (by decide)⟩

/-- The analysis result consumed by `LearningService._store_learning_data`:
the JSON sections it iterates over (an absent section behaves like an empty
one, so sections are plain lists of entries). -/
structure LearningAnalysis where
  personal_facts : List (String × String)
  communication_preferences : List (String × String)
  topics_of_interest : List String
deriving DecidableEq, Repr

/-- A fresh `learning_data` row as constructed in
`LearningService._store_learning_data`; the column defaults of the model
apply (`times_observed = 1`, active, no feedback yet), `created_at` is set
to the cycle timestamp, `uuid4` keys are abstracted as caller-supplied
fresh ids. -/
def newLearningRec (now : ℚ) (idv : Nat) (uid ltype k v : String) (conf : ℚ)
    (convId : Nat) (ctx : String) : LearningRec :=
  { id := idv, user_id := uid, learning_type := ltype, category := "general",
    key := k, value := v, confidence := conf, source_conversation_id := some convId,
    context := some ctx, extraction_method := "ai_analysis", times_observed := 1,
    times_reinforced := 0, times_contradicted := 0, last_observed := now,
    last_reinforced := now, created_at := now, updated_at := now, is_active := true,
    is_validated := false, superseded_by := none, validation_score := 0,
    importance_score := 1/2 }

/-- The records `LearningService._store_learning_data` adds to the session:
one per personal fact (confidence 0.8), one per communication preference
(confidence 0.7), one per topic of interest (confidence 0.6, key "topic"),
with sequential fresh ids starting at `fresh`. -/
def analysisRecords (now : ℚ) (uid : String) (a : LearningAnalysis)
    (convId fresh : Nat) : List LearningRec :=
  (a.personal_facts.enum.map (fun p =>
      newLearningRec now (fresh + p.1) uid "personal_fact" p.2.1 p.2.2 (8/10)
        convId "Learned from conversation analysis"))
  ++ (a.communication_preferences.enum.map (fun p =>
      newLearningRec now (fresh + a.personal_facts.length + p.1) uid
        "communication_preference" p.2.1 p.2.2 (7/10)
        convId "Inferred communication preference"))
  ++ (a.topics_of_interest.enum.map (fun p =>
      newLearningRec now
        (fresh + a.personal_facts.length + a.communication_preferences.length + p.1)
        uid "topic_interest" "topic" p.2 (6/10)
        convId "Topic mentioned in conversation"))

/-- `LearningService._store_learning_data`: every analysis entry is added to
the store as a brand-new record; the existing records are not consulted. -/
def storeLearningData (now : ℚ) (uid : String) (a : LearningAnalysis)
    (convId fresh : Nat) (store : List LearningRec) : List LearningRec :=
  store ++ analysisRecords now uid a convId fresh

/-- An analysis reporting one personal fact whose `(user_id, learning_type,
key)` identity matches the already-stored active record `baseRec`. -/
def c1Analysis : LearningAnalysis :=
  { personal_facts := [("name", "Alice")],
    communication_preferences := [],
    topics_of_interest := [] }

/-- Counterexample to claim C1: an active record with the same
`(user_id, learning_type, key)` identity already exists, yet the
learning-update cycle performs no reinforcement (every stored record still
has `times_reinforced = 0`, the existing record is returned unchanged) and
instead creates a second record for the same key with the default 0.8
confidence. -/
theorem storeLearningData_always_creates_cex :
    baseRec.is_active = true ∧ baseRec.user_id = "u"
    ∧ baseRec.learning_type = "personal_fact" ∧ baseRec.key = "name"
    ∧ storeLearningData 100 "u" c1Analysis 7 10 [baseRec]
        = [baseRec,
           newLearningRec 100 10 "u" "personal_fact" "name" "Alice" (8/10) 7
             "Learned from conversation analysis"]
    ∧ (∀ s ∈ storeLearningData 100 "u" c1Analysis 7 10 [baseRec],
        s.times_reinforced = 0)
    ∧ ((storeLearningData 100 "u" c1Analysis 7 10 [baseRec]).filter
        (fun s => s.key == "name")).length = 2 := by
  refine ⟨by decide, by decide, by decide, by decide, rfl, by decide, by decide⟩

/-- Claim C1 as amended: the learning-update cycle appends a brand-new
record for every analysis entry, with the type-specific default confidence
(0.8 personal fact, 0.7 communication preference, 0.6 topic interest) and
no reinforcement, leaving every pre-existing record unchanged — it never
looks up or reinforces an existing active record with the same identity
(duplicates are left to the merge pass). -/
theorem storeLearningData_appends_with_default_confidence
    (now : ℚ) (uid : String) (a : LearningAnalysis) (convId fresh : Nat)
    (store : List LearningRec) :
    storeLearningData now uid a convId fresh store
      = store ++ analysisRecords now uid a convId fresh
    ∧ ∀ s ∈ analysisRecords now uid a convId fresh,
        s.times_reinforced = 0 ∧ s.is_active = true ∧ s.user_id = uid
        ∧ (s.learning_type = "personal_fact" → s.confidence = 8/10)
        ∧ (s.learning_type = "communication_preference" → s.confidence = 7/10)
        ∧ (s.learning_type = "topic_interest" → s.confidence = 6/10)
        ∧ (s.learning_type = "personal_fact"
            ∨ s.learning_type = "communication_preference"
            ∨ s.learning_type = "topic_interest") := by
  refine ⟨rfl, ?_⟩
  intro s hs
  unfold analysisRecords at hs
  rcases List.mem_append.1 hs with hs12 | hs3
  · rcases List.mem_append.1 hs12 with hs1 | hs2
    · obtain ⟨p, _, hp⟩ := List.mem_map.1 hs1
      rw [← hp]
      exact ⟨rfl, rfl, rfl, fun _ => rfl, fun h => by simp [newLearningRec] at h,
        fun h => by simp [newLearningRec] at h, Or.inl rfl⟩
    · obtain ⟨p, _, hp⟩ := List.mem_map.1 hs2
      rw [← hp]
      exact ⟨rfl, rfl, rfl, fun h => by simp [newLearningRec] at h, fun _ => rfl,
        fun h => by simp [newLearningRec] at h, Or.inr (Or.inl rfl)⟩
  · obtain ⟨p, _, hp⟩ := List.mem_map.1 hs3
    rw [← hp]
    exact ⟨rfl, rfl, rfl, fun h => by simp [newLearningRec] at h,
      fun h => by simp [newLearningRec] at h, fun _ => rfl, Or.inr (Or.inr rfl)⟩

/-- `MemoryService._archive_old_learnings`: deactivate (only) those active
records of the user that are low-confidence (< 0.3), stale (last observed more
than 30 days ago) and net-contradicted. -/
def archiveOldLearnings (now : ℚ) (uid : String) (store : List LearningRec) :
    List LearningRec :=
  store.map (fun r =>
    if r.user_id == uid && r.is_active && decide (r.confidence < 3/10)
        && decide (r.last_observed < now - 30)
        && decide (r.times_reinforced < r.times_contradicted) then
      { r with is_active := false, updated_at := now }
    else r)

/-- Embedding of the `user_profiles` row (backend/app/models/user_profile.py,
class UserProfile).  The JSONB mappings become association lists. -/
structure UserProfile where
  id : Nat
  user_id : String
  personal_facts : List (String × String)
  communication_preferences : List (String × String)
  topics_of_interest : List String
  expertise_areas : List String
  avg_message_length : ℚ
  formality_score : ℚ
  preferred_response_length : String
  created_at : ℚ
  last_updated : ℚ
  last_interaction : ℚ
  total_messages : Nat
  total_conversations : Nat
deriving DecidableEq, Repr

/-- A stored conversation turn (the fields consulted by the engine). -/
structure Conversation where
  id : Nat
  user_id : String
  content : String
  message_type : String
  topics : List String
  timestamp : ℚ
deriving DecidableEq, Repr

/-- Embedding of the `conversation_summaries` row
(backend/app/models/learning_data.py, class ConversationSummary). -/
structure ConvSummary where
  id : Nat
  user_id : String
  title : Option String
  summary : String
  key_topics : List String
  start_time : ℚ
  end_time : ℚ
  message_count : Nat
  conversation_ids : List Nat
  summary_type : String
  summarization_method : String
  confidence_score : ℚ
  created_at : ℚ
  updated_at : ℚ
  is_active : Bool
  is_archived : Bool
deriving DecidableEq, Repr

/-- The per-user persistent state: the four entity tables. -/
structure Db where
  conversations : List Conversation
  learnings : List LearningRec
  summaries : List ConvSummary
  profiles : List UserProfile
deriving DecidableEq, Repr

/-- The field resets performed on the profile row by the
`reset_user_profile` endpoint (backend/app/api/learning.py). -/
def resetProfileFields (now : ℚ) (p : UserProfile) : UserProfile :=
  { p with
    personal_facts := []
    communication_preferences := []
    topics_of_interest := []
    expertise_areas := []
    formality_score := 1/2
    avg_message_length := 0
    preferred_response_length := "medium"
    last_updated := now }

/-- The `DELETE /reset-profile` endpoint (backend/app/api/learning.py,
reset_user_profile): bulk-delete the learning rows and summary rows of the
user, then clear the profile fields, then commit. -/
def resetUserProfile (now : ℚ) (uid : String) (db : Db) : Db :=
  { db with
    learnings := db.learnings.filter (fun r => !(r.user_id == uid))
    summaries := db.summaries.filter (fun s => !(s.user_id == uid))
    profiles := db.profiles.map
      (fun p => if p.user_id == uid then resetProfileFields now p else p) }

/-- Single-record store used to exhibit the physical delete of reset. -/
def c10Db : Db :=
  { conversations := [], learnings := [baseRec], summaries := [], profiles := [] }

/-- Counterexample to claim C10: the reset endpoint physically deletes fact
records — after reset the stored record is gone entirely, not merely
deactivated. -/
theorem resetUserProfile_deletes_cex :
    baseRec ∈ c10Db.learnings
    ∧ (resetUserProfile 5 "u" c10Db).learnings = []
    ∧ baseRec ∉ (resetUserProfile 5 "u" c10Db).learnings := by
  have h2 : (resetUserProfile 5 "u" c10Db).learnings = [] := rfl
  refine ⟨List.mem_cons_self _ _, h2, ?_⟩
  rw [h2]
  exact List.not_mem_nil _

/-- Claim C10 as amended: the merge and archival passes never physically
delete fact records (the stored id sequence is preserved exactly, they only
update rows in place), but the reset endpoint does physically delete: it
removes every learning record and every summary of the user from the
store. -/
theorem merge_archive_preserve_records_reset_deletes
    (uid : String) (now : ℚ) (store : List LearningRec) (db : Db) :
    (mergeSimilarLearnings uid store).map (fun s => s.id)
        = store.map (fun s => s.id)
    ∧ (archiveOldLearnings now uid store).map (fun s => s.id)
        = store.map (fun s => s.id)
    ∧ (resetUserProfile now uid db).learnings
        = db.learnings.filter (fun r => !(r.user_id == uid))
    ∧ (resetUserProfile now uid db).summaries
        = db.summaries.filter (fun s => !(s.user_id == uid)) := by
  refine ⟨mergeSimilarLearnings_ids uid store, ?_, rfl, rfl⟩
  unfold archiveOldLearnings
  rw [List.map_map]
  apply List.map_congr_left
  intro x _
  show (if x.user_id == uid && x.is_active && decide (x.confidence < 3/10)
        && decide (x.last_observed < now - 30)
        && decide (x.times_reinforced < x.times_contradicted) then
      { x with is_active := false, updated_at := now }
    else x).id = x.id
  split <;> rfl

/-- Python `len(content.split())`: the number of maximal whitespace-free
runs in a string. -/
def countWordsAux (inWord : Bool) (acc : Nat) : List Char → Nat
  | [] => acc
  | c :: cs =>
      if c.isWhitespace then countWordsAux false acc cs
      else if inWord then countWordsAux true acc cs
      else countWordsAux true (acc + 1) cs

/-- Word count of a message body. -/
def wordCount (s : String) : Nat := countWordsAux false 0 s.data

/-- Python `set.update` over topic lists, realized as first-occurrence
union (the source then takes `len` and `list(...)` of the set, neither of
which depends on the unspecified set order). -/
def topicsUnion (acc : List String) (ts : List String) : List String :=
  ts.foldl (fun acc2 t => if acc2.contains t then acc2 else acc2 ++ [t]) acc

/-- Stable insertion for the `ORDER BY timestamp` (ascending) fetch of
recent conversations; ties between equal timestamps are backend-unspecified
in the source, this is one admissible realization. -/
def insertConv (x : Conversation) : List Conversation → List Conversation
  | [] => [x]
  | y :: ys =>
      if decide (y.timestamp < x.timestamp) then y :: insertConv x ys
      else x :: y :: ys

/-- Sort conversations by ascending timestamp. -/
def sortConvs : List Conversation → List Conversation
  | [] => []
  | x :: xs => insertConv x (sortConvs xs)

/-- `MemoryService._create_recent_summary`: summarize the last 24 hours of
the conversation turns of the user, skipping when fewer than 10 turns exist or
when a summary already covers the last 25 hours.  `uuid4` is abstracted as
the caller-supplied fresh id, and the `strftime` rendering of the session
start in the title is abstracted as `toString` of the embedded timestamp
(no claim reads the rendered text). -/
def createRecentSummary (now : ℚ) (fresh : Nat) (uid : String) (db : Db) : Db :=
  let recent := sortConvs (db.conversations.filter
    (fun c => c.user_id == uid && decide (now - 1 < c.timestamp)))
  if recent.length < 10 then db
  else if db.summaries.any
      (fun s => s.user_id == uid && decide (now - 25/24 < s.start_time)) then db
  else
    match recent with
    | [] => db
    | first :: _ =>
        let lastConv := (recent.getLast?).getD first
        let topics := recent.foldl (fun acc c => topicsUnion acc c.topics) []
        let totalWords := (recent.map (fun c => wordCount c.content)).sum
        let summaryText := "Conversation session with " ++ toString recent.length
          ++ " messages covering " ++ toString topics.length
          ++ " topics. Average message length: "
          ++ toString (totalWords / recent.length) ++ " words."
        let s : ConvSummary :=
          { id := fresh
            user_id := uid
            title := some ("Session from " ++ toString first.timestamp)
            summary := summaryText
            key_topics := topics
            start_time := first.timestamp
            end_time := lastConv.timestamp
            message_count := recent.length
            conversation_ids := recent.map (fun c => c.id)
            summary_type := "automatic"
            summarization_method := "ai_generated"
            confidence_score := 7/10
            created_at := now
            updated_at := now
            is_active := true
            is_archived := false }
        { db with summaries := db.summaries ++ [s] }

/-- Modelled attribute lookup for `calculate_profile_completeness` on a
UserProfile instance: backend/app/models/user_profile.py defines no method
(or column) of that name, so the lookup fails — in Python, calling it
raises `AttributeError`. -/
def calculateProfileCompleteness? : Option (UserProfile → UserProfile) := none

/-- `MemoryService.consolidate_memory`: create the recent summary, run the
merge pass, run the archival pass, then call
`user_profile.calculate_profile_completeness()` when the user has a profile
row, and commit.  Any exception is caught, logged, and the session is
rolled back — so when the attribute lookup fails the returned store is the
original one and the error is reported in the second component. -/
def consolidateMemory (now : ℚ) (fresh : Nat) (uid : String) (db : Db) :
    Db × Option String :=
  let db1 := createRecentSummary now fresh uid db
  let db2 := { db1 with learnings := mergeSimilarLearnings uid db1.learnings }
  let db3 := { db2 with learnings := archiveOldLearnings now uid db2.learnings }
  match db3.profiles.find? (fun p => p.user_id == uid) with
  | some p =>
      match calculateProfileCompleteness? with
      | some f =>
          ({ db3 with
             profiles := db3.profiles.map
               (fun q => if q.user_id == uid then f q else q) },
           none)
      | none => (db, some "AttributeError")
  | none => (db3, none)

theorem createRecentSummary_profiles (now : ℚ) (fresh : Nat) (uid : String)
    (db : Db) : (createRecentSummary now fresh uid db).profiles = db.profiles := by
  simp only [createRecentSummary]
  split
  · rfl
  · split
    · rfl
    · split <;> rfl

theorem find?_user_exists (l : List UserProfile) (uid : String)
    (p : UserProfile) (hp : p ∈ l) (hu : p.user_id = uid) :
    ∃ q, l.find? (fun x => x.user_id == uid) = some q := by
  induction l with
  | nil => cases hp
  | cons a t ih =>
      by_cases ha : a.user_id = uid
      · exact ⟨a, List.find?_cons_of_pos _ (by simp [ha])⟩
      · rcases List.mem_cons.1 hp with rfl | hpt
        · exact absurd hu ha
        · obtain ⟨q, hq⟩ := ih hpt
          exact ⟨q, by rw [List.find?_cons_of_neg _ (by simp [ha]), hq]⟩

/-- Claim C2: for every user that has a UserProfile row, the consolidation
run hits the missing `calculate_profile_completeness` attribute
(AttributeError), the session is rolled back, and none of the summary,
merge or archival changes of the run are committed: the returned store is
exactly the input store. -/
theorem consolidateMemory_attribute_error_rollback
    (now : ℚ) (fresh : Nat) (uid : String) (db : Db)
    (h : ∃ p ∈ db.profiles, p.user_id = uid) :
    consolidateMemory now fresh uid db = (db, some "AttributeError") := by
  obtain ⟨p, hp, hpu⟩ := h
  obtain ⟨q, hq⟩ := find?_user_exists db.profiles uid p hp hpu
  unfold consolidateMemory
  simp only [createRecentSummary_profiles]
  rw [hq]
  rfl

/-- Witness for claim C2 on a concrete one-profile store. -/
def c2Profile : UserProfile :=
  { id := 1, user_id := "u", personal_facts := [],
    communication_preferences := [], topics_of_interest := [],
    expertise_areas := [], avg_message_length := 0, formality_score := 1/2,
    preferred_response_length := "medium", created_at := 0, last_updated := 0,
    last_interaction := 0, total_messages := 0, total_conversations := 0 }

/-- The one-profile store for the claim C2 witness. -/
def c2Db : Db :=
  { conversations := [], learnings := [], summaries := [], profiles := [c2Profile] }

/-- Witness for claim C2. -/
theorem consolidateMemory_attribute_error_rollback_witness :
    (∃ p ∈ c2Db.profiles, p.user_id = "u")
    ∧ consolidateMemory 0 5 "u" c2Db = (c2Db, some "AttributeError") :=
  ⟨⟨c2Profile, List.mem_cons_self _ _, rfl⟩,
   consolidateMemory_attribute_error_rollback 0 5 "u" c2Db
     ⟨c2Profile, List.mem_cons_self _ _, rfl⟩⟩

end AgentSpec
